import Mathlib

/-!
Shallow embedding of `hcm.py` (Histogram Confidence Method drift detector).

Conventions of the embedding:
* Python floats are modelled as exact rationals (`ℚ`); the square root in the
  envelope calculator forces real numbers (`ℝ`) there.
* Python lists are `List`; `sorted(xs)` is a stable ascending sort — on `ℚ`
  every correct ascending sort produces the same list, embedded as
  `List.insertionSort (· ≤ ·)`.
* Fallible operations (the `ValueError` in `__init__`, the `IndexError` a
  `popleft` on an empty deque would raise) return `Option`.
* `HCM._build_adaptive_histogram`'s `while` loop is a recursive function; the
  loop accumulates `edges`/`counts` by appending at the end, the recursion
  accumulates them in reverse (new bin at the head) and the wrapper reverses
  at the end, which is the same sequence of bins.
-/

/-- Python list indexing `l[j]` with negative-index wraparound
(`l[-k]` is `l[len(l)-k]`), defaulting to `0` out of range. -/
def pyGetD (l : List ℚ) (j : ℤ) : ℚ :=
  if j < 0 then l.getD ((l.length : ℤ) + j).toNat 0 else l.getD j.toNat 0

/-- Python `sorted(xs)`: the ascending stable sort of `xs`. -/
def pySorted (l : List ℚ) : List ℚ :=
  l.insertionSort (· ≤ ·)

/-- Python `bisect.bisect_right(l, x)` on a sorted list `l`: the number of
leading elements `≤ x`, i.e. the insertion point keeping `l` sorted with `x`
placed after any equal elements. -/
def bisectRight (x : ℚ) : List ℚ → ℕ
  | [] => 0
  | e :: rest => if x < e then 0 else bisectRight x rest + 1

/-- The `while` loop of `HCM._build_adaptive_histogram`.  `i` is the cursor
into `data`; `edgesR`/`countsR` hold the bins built so far, most recent first
(the Python code appends at the end instead).  Each pass carves the chunk
`data[i:min(n, i+m)]`; a final chunk shorter than `m/2` is merged into the
previous bin (`counts[-1] += size; edges[-1] = data[j-1]`, here a head
replacement), otherwise the chunk becomes a new bin whose right edge is its
last element. -/
def buildLoop (data : List ℚ) (m b : ℕ) (i : ℕ) (edgesR : List ℚ)
    (countsR : List ℕ) : List ℚ × List ℕ :=
  if h : i < data.length ∧ countsR.length < b then
    let j := min data.length (i + m)
    if h2 : j = data.length ∧ countsR ≠ [] ∧ ((j - i : ℕ) : ℚ) < (m : ℚ) / 2 then
      buildLoop data m b j (pyGetD data ((j : ℤ) - 1) :: edgesR.tail)
        ((countsR.headD 0 + (j - i)) :: countsR.tail)
    else
      buildLoop data m b j (pyGetD data ((j : ℤ) - 1) :: edgesR) ((j - i) :: countsR)
  else (edgesR, countsR)
termination_by (data.length - i) + (b - countsR.length)
decreasing_by
  · have h1 : 0 < countsR.length := List.length_pos.mpr h2.2.1
    simp only [List.length_cons, List.length_tail]
    omega
  · simp only [List.length_cons]
    omega

/-- Embeds `HCM._build_adaptive_histogram(data)`: run the loop from the start, then
prepend the sentinel left edge `data[0] - 1e-9`. -/
def buildAdaptiveHistogram (data : List ℚ) (m b : ℕ) : List ℚ × List ℕ :=
  let r := buildLoop data m b 0 [] []
  ((pyGetD data 0 - 1 / 1000000000) :: r.1.reverse, r.2.reverse)

/-- The critical value `z` chosen in `HCM._compute_count_bounds`: the lookup
table handles confidences within `1e-6` of `0.95` and `0.99`; for any other
confidence the code attempts `from math import erfcinv`, which always raises
(CPython's `math` has no `erfcinv`), so the `except` branch returns the
conservative fallback `2.576`. -/
def zValue (confidence : ℚ) : ℚ :=
  if |confidence - 95 / 100| < 1 / 1000000 then 196 / 100
  else if |confidence - 99 / 100| < 1 / 1000000 then 2576 / 1000
  else 2576 / 1000

/-- The loop body of `HCM._compute_count_bounds` for one bin probability
`p_i`: the pair `(L_i, U_i)`.  A baseline-empty bin (`p_i == 0 or mu == 0`)
gets `(0, 0)`; otherwise `L_i = floor(max(0, mu - z*sigma))` and
`U_i = ceil(min(w, mu + z*sigma))` with `mu = w*p_i` and
`sigma = sqrt(max(w*p_i*(1-p_i), 1e-9))`. -/
noncomputable def boundsFor (w : ℕ) (z : ℝ) (pi : ℚ) : ℤ × ℤ :=
  if pi = 0 ∨ (w : ℚ) * pi = 0 then (0, 0)
  else
    let mu : ℝ := (w : ℝ) * (pi : ℝ)
    let sigma : ℝ := Real.sqrt (max ((w : ℝ) * (pi : ℝ) * (1 - (pi : ℝ))) (1 / 1000000000))
    (⌊max 0 (mu - z * sigma)⌋, ⌈min (w : ℝ) (mu + z * sigma)⌉)

/-- Embeds `HCM._compute_count_bounds`: the two parallel lists `L` and `U`. -/
noncomputable def computeCountBounds (p : List ℚ) (w : ℕ) (confidence : ℚ) :
    List ℤ × List ℤ :=
  (p.map (boundsFor w ((zValue confidence : ℚ) : ℝ))).unzip

/-- Embeds `HCM._bin_index(x)`: `bisect_right(edges, x) - 1`, clamped into
`0 .. K-1`. -/
def binIndex (edges : List ℚ) (K : ℕ) (x : ℚ) : ℕ :=
  let idx : ℤ := (bisectRight x edges : ℤ) - 1
  if idx < 0 then 0
  else if (K : ℤ) ≤ idx then K - 1
  else idx.toNat

/-- The fields of an `HCM` instance.  `buffer` is the deque, oldest element
first; `current_counts` are the live per-bin occupancies. -/
structure HCMState where
  edges : List ℚ
  bin_counts : List ℕ
  K : ℕ
  N : ℕ
  p : List ℚ
  L : List ℤ
  U : List ℤ
  w : ℕ
  buffer : List ℚ
  current_counts : List ℤ
  drift : Bool

/-- Embeds `HCM.__init__` applied to already-sorted data (the constructor's first
line sorts; everything after it uses the sorted list). `none` is the
`ValueError` raised when the baseline is smaller than `min_per_bin`. -/
noncomputable def hcmFromSorted (data : List ℚ) (window_size min_per_bin max_bins : ℕ)
    (confidence : ℚ) : Option HCMState :=
  if data.length < min_per_bin then none
  else
    let eb := buildAdaptiveHistogram data min_per_bin max_bins
    let K := eb.2.length
    let N := data.length
    let p := eb.2.map (fun (c : ℕ) => (c : ℚ) / (N : ℚ))
    let LU := computeCountBounds p window_size confidence
    some { edges := eb.1, bin_counts := eb.2, K := K, N := N, p := p,
           L := LU.1, U := LU.2, w := window_size, buffer := [],
           current_counts := List.replicate K 0, drift := false }

/-- Embeds `HCM.__init__`: sort the baseline, then construct. -/
noncomputable def hcmInit (baseline : List ℚ) (window_size min_per_bin max_bins : ℕ)
    (confidence : ℚ) : Option HCMState :=
  hcmFromSorted (pySorted baseline) window_size min_per_bin max_bins confidence

/-- The histogram an `HCM` built from `baseline` holds: edges and counts. -/
def hcmHist (baseline : List ℚ) (m b : ℕ) : List ℚ × List ℕ :=
  buildAdaptiveHistogram (pySorted baseline) m b

/-- Field `self.edges` of a detector built from `baseline`. -/
def hcmEdges (baseline : List ℚ) (m b : ℕ) : List ℚ :=
  (hcmHist baseline m b).1

/-- Field `self.K` of a detector built from `baseline`. -/
def hcmK (baseline : List ℚ) (m b : ℕ) : ℕ :=
  (hcmHist baseline m b).2.length

/-- Field `self.p` of a detector built from `baseline`:
`[c / N for c in bin_counts]`. -/
def hcmProbs (baseline : List ℚ) (m b : ℕ) : List ℚ :=
  (hcmHist baseline m b).2.map (fun (c : ℕ) => (c : ℚ) / ((pySorted baseline).length : ℚ))

/-- Field `self.L` of a detector built from `baseline`. -/
noncomputable def hcmL (baseline : List ℚ) (w m b : ℕ) (confidence : ℚ) : List ℤ :=
  (computeCountBounds (hcmProbs baseline m b) w confidence).1

/-- Field `self.U` of a detector built from `baseline`. -/
noncomputable def hcmU (baseline : List ℚ) (w m b : ℕ) (confidence : ℚ) : List ℤ :=
  (computeCountBounds (hcmProbs baseline m b) w confidence).2

/-- The drift check loop of `HCM.update`: walk the three parallel length-`K`
lists `current_counts`, `L`, `U` and report whether some bin count lies
strictly outside `[L_i, U_i]` (the Python loop breaks at the first violation;
the recursion stops there too). -/
def driftScan : List ℤ → List ℤ → List ℤ → Bool
  | [], _, _ => false
  | _ :: _, [], _ => false
  | _ :: _, _ :: _, [] => false
  | c :: cs, l :: ls, u :: us => if c < l ∨ u < c then true else driftScan cs ls us

/-- Embeds `HCM.update(x)`.  Returns `none` exactly where Python raises: popping the
oldest element from an empty full window (only possible when `w = 0`).
Out-of-range list writes cannot occur on states with `1 ≤ K` and
`current_counts.length = K`, the states real constructions produce; on such
states `List.set` coincides with the Python item assignment. -/
def update (s : HCMState) (x : ℚ) : Option (Bool × HCMState) :=
  let popped : Option (List ℚ × List ℤ) :=
    if s.buffer.length = s.w then
      match s.buffer with
      | [] => none
      | old :: rest =>
        let oldIdx := binIndex s.edges s.K old
        some (rest, s.current_counts.set oldIdx (s.current_counts.getD oldIdx 0 - 1))
    else some (s.buffer, s.current_counts)
  match popped with
  | none => none
  | some (buf0, cc0) =>
    let idx := binIndex s.edges s.K x
    let buf1 := buf0 ++ [x]
    let cc1 := cc0.set idx (cc0.getD idx 0 + 1)
    if buf1.length < s.w then
      some (true, { s with buffer := buf1, current_counts := cc1, drift := false })
    else
      let d := driftScan cc1 s.L s.U
      some (!d, { s with buffer := buf1, current_counts := cc1, drift := d })

/-- A sequence of `update` calls, stopping at the first failure. -/
def updates : HCMState → List ℚ → Option HCMState
  | s, [] => some s
  | s, x :: xs =>
    match update s x with
    | none => none
    | some r => updates r.2 xs

/-- Embeds `HCM.reset()`: clear the window, zero the occupancies, clear the drift
flag; everything built at construction stays. -/
def reset (s : HCMState) : HCMState :=
  { s with buffer := [], current_counts := List.replicate s.K 0, drift := false }

/-- Loop invariant giving the total mass of the bins: the loop has consumed
exactly the first `i` samples, full chunks of `m` unless the data ran out. -/
lemma buildLoop_sum (data : List ℚ) (m b i : ℕ) (edgesR : List ℚ) (countsR : List ℕ) :
    countsR.sum = i → i ≤ data.length → countsR.length ≤ b →
    (i < data.length → i = countsR.length * m) →
    (i = data.length → data.length ≤ b * m) →
    ((buildLoop data m b i edgesR countsR).2).sum = min data.length (b * m) := by
  induction i, edgesR, countsR using buildLoop.induct data m b with
  | case1 i edgesR countsR h j h2 ih =>
    intro h1 h3 h4 h5 h6
    rw [buildLoop, dif_pos h, dif_pos h2]
    obtain ⟨c, t, rfl⟩ : ∃ c t, countsR = c :: t := by
      cases countsR with
      | nil => exact absurd rfl h2.2.1
      | cons c t => exact ⟨c, t, rfl⟩
    have hji : i ≤ j := le_min (le_of_lt h.1) (Nat.le_add_right i m)
    have hjm : j ≤ i + m := min_le_right _ _
    have hlen : i = (c :: t).length * m := h5 h.1
    have hbm : (t.length + 1 + 1) * m ≤ b * m :=
      Nat.mul_le_mul_right m (by simpa using h.2)
    apply ih
    · simp only [List.headD, List.tail, List.sum_cons] at h1 ⊢
      omega
    · omega
    · simpa using h4
    · intro hc; omega
    · intro _
      simp only [List.length_cons] at hlen
      rw [Nat.add_mul] at hbm
      omega
  | case2 i edgesR countsR h j h2 ih =>
    intro h1 h3 h4 h5 h6
    rw [buildLoop, dif_pos h, dif_neg h2]
    have hji : i ≤ j := le_min (le_of_lt h.1) (Nat.le_add_right i m)
    have hjm : j ≤ i + m := min_le_right _ _
    have hjn : j ≤ data.length := min_le_left _ _
    have hlen : i = countsR.length * m := h5 h.1
    have hbm : (countsR.length + 1) * m ≤ b * m := Nat.mul_le_mul_right m h.2
    apply ih
    · simp only [List.sum_cons]
      omega
    · exact hjn
    · simpa using h.2
    · intro hc
      have : j = i + m := by omega
      simp only [List.length_cons, Nat.add_mul, one_mul]
      omega
    · intro hc
      rw [Nat.add_mul, one_mul] at hbm
      omega
  | case3 i edgesR countsR h =>
    intro h1 h3 h4 h5 h6
    rw [buildLoop, dif_neg h]
    push_neg at h
    show countsR.sum = min data.length (b * m)
    rcases Nat.lt_or_ge i data.length with hi | hi
    · have hb : countsR.length = b := le_antisymm ‹countsR.length ≤ b› (h hi)
      have he := h5 hi
      rw [hb] at he
      have hmin : min data.length (b * m) = b * m := min_eq_right (by omega)
      omega
    · have hin : i = data.length := le_antisymm h3 hi
      have hmin : min data.length (b * m) = data.length := min_eq_left (h6 hin)
      omega

/-- C1, amended: the baseline counts sum to `min N (max_bins * min_per_bin)` —
all of `N` unless the builder stops early at `max_bins` bins. -/
theorem c1_total_mass (data : List ℚ) (m b : ℕ) :
    ((buildAdaptiveHistogram data m b).2).sum = min data.length (b * m) := by
  have := buildLoop_sum data m b 0 [] [] rfl (Nat.zero_le _) (Nat.zero_le _)
    (fun _ => by simp) (fun h => by omega)
  simpa [buildAdaptiveHistogram, List.sum_reverse] using this

set_option maxRecDepth 4000 in
/-- C1 counterexample: a baseline of `N = 2` samples with `min_per_bin = 1`,
`max_bins = 1` builds one bin of count 1 — the sample beyond the
`max_bins` cap is dropped from the counts, so they do not sum to `N`. -/
theorem c1_total_mass_cex :
    (buildAdaptiveHistogram [(0 : ℚ), 1] 1 1).2.sum ≠ 2 := by
  rw [buildAdaptiveHistogram, buildLoop]
  norm_num
  rw [buildLoop]
  norm_num

/-- Loop invariant of the bin sizes: while data remains every emitted bin is a
full chunk of exactly `m`; the final step either merges an undersized tail
chunk into the previous bin or emits a tail chunk of at least `m / 2`. -/
lemma buildLoop_shape (data : List ℚ) (m b i : ℕ) (edgesR : List ℚ) (countsR : List ℕ) :
    m ≤ data.length → i ≤ data.length →
    (i < data.length → ∀ c ∈ countsR, c = m) →
    (countsR = [] → i = 0) →
    (i = data.length →
      (∀ c ∈ countsR.tail, m ≤ c) ∧ (countsR ≠ [] → m ≤ 2 * countsR.headD 0)) →
    (∀ c ∈ ((buildLoop data m b i edgesR countsR).2).tail, m ≤ c) ∧
      (((buildLoop data m b i edgesR countsR).2) ≠ [] →
        m ≤ 2 * ((buildLoop data m b i edgesR countsR).2).headD 0) := by
  induction i, edgesR, countsR using buildLoop.induct data m b with
  | case1 i edgesR countsR h j h2 ih =>
    intro hmn h3 h4 h5 h6
    rw [buildLoop, dif_pos h, dif_pos h2]
    obtain ⟨c, t, rfl⟩ : ∃ c t, countsR = c :: t := by
      cases countsR with
      | nil => exact absurd rfl h2.2.1
      | cons c t => exact ⟨c, t, rfl⟩
    have hall := h4 h.1
    have hcm : c = m := hall c (List.mem_cons_self c t)
    apply ih hmn
    · exact le_of_eq h2.1
    · intro hc
      rw [h2.1] at hc
      exact absurd hc (lt_irrefl _)
    · intro hc
      exact absurd hc (List.cons_ne_nil _ _)
    · intro _
      refine ⟨fun c' hc' => ?_, fun _ => ?_⟩
      · exact le_of_eq (hall c' (List.mem_cons_of_mem _ hc')).symm
      · simp only [List.headD_cons, List.tail_cons] at *
        omega
  | case2 i edgesR countsR h j h2 ih =>
    intro hmn h3 h4 h5 h6
    rw [buildLoop, dif_pos h, dif_neg h2]
    have hji : i ≤ j := le_min (le_of_lt h.1) (Nat.le_add_right i m)
    have hjm : j ≤ i + m := min_le_right _ _
    have hjn : j ≤ data.length := min_le_left _ _
    apply ih hmn hjn
    · intro hc c' hc'
      have hjim : j = i + m := by omega
      rcases List.mem_cons.mp hc' with h' | h'
      · omega
      · exact h4 h.1 c' h'
    · intro hc
      exact absurd hc (List.cons_ne_nil _ _)
    · intro hjd
      refine ⟨fun c' hc' => le_of_eq (h4 h.1 c' (by simpa using hc')).symm, fun _ => ?_⟩
      simp only [List.headD_cons]
      rcases Decidable.em (countsR = []) with hnil | hnil
      · have hi0 : i = 0 := h5 hnil
        omega
      · have hsz : ¬ (((j - i : ℕ) : ℚ) < (m : ℚ) / 2) := fun hq => h2 ⟨hjd, hnil, hq⟩
        push_neg at hsz
        have : (m : ℚ) ≤ 2 * ((j - i : ℕ) : ℚ) := by linarith
        exact_mod_cast this
  | case3 i edgesR countsR h =>
    intro hmn h3 h4 h5 h6
    rw [buildLoop, dif_neg h]
    show (∀ c ∈ countsR.tail, m ≤ c) ∧ (countsR ≠ [] → m ≤ 2 * countsR.headD 0)
    rcases Nat.lt_or_ge i data.length with hi | hi
    · have hall := h4 hi
      refine ⟨fun c' hc' => le_of_eq (hall c' (List.mem_of_mem_tail hc')).symm, fun hne => ?_⟩
      obtain ⟨c, t, rfl⟩ : ∃ c t, countsR = c :: t := by
        cases countsR with
        | nil => exact absurd rfl hne
        | cons c t => exact ⟨c, t, rfl⟩
      have : c = m := hall c (List.mem_cons_self c t)
      simp only [List.headD_cons]
      omega
    · exact h6 (le_antisymm h3 hi)

/-- C3, amended: every bin except possibly the last holds at least
`min_per_bin` baseline samples, and the last holds at least `min_per_bin / 2`
(an undersized tail chunk below half of `min_per_bin` is merged instead of
emitted). -/
theorem c3_min_bin_mass (data : List ℚ) (m b : ℕ) (h : m ≤ data.length) :
    (∀ c ∈ (buildAdaptiveHistogram data m b).2.dropLast, m ≤ c) ∧
      (∀ c, (buildAdaptiveHistogram data m b).2.getLast? = some c → m ≤ 2 * c) := by
  have hs := buildLoop_shape data m b 0 [] [] h (Nat.zero_le _)
    (fun _ c hc => absurd hc (List.not_mem_nil c))
    (fun _ => rfl)
    (fun hd => ⟨fun c hc => absurd hc (List.not_mem_nil c), fun hne => absurd rfl hne⟩)
  rw [buildAdaptiveHistogram]
  cases hr : (buildLoop data m b 0 [] []).2 with
  | nil => simp
  | cons c t =>
    rw [hr] at hs
    simp only [List.reverse_cons]
    constructor
    · intro c' hc'
      rw [List.dropLast_concat] at hc'
      exact hs.1 c' (by simpa using hc')
    · intro c' hc'
      rw [List.getLast?_concat] at hc'
      obtain rfl : c = c' := by injection hc'
      have := hs.2 (List.cons_ne_nil _ _)
      simpa using this

set_option maxRecDepth 4000 in
/-- C3 counterexample: baseline `[0,1,2]` with `min_per_bin = 2` emits a
trailing bin of count 1 (the tail chunk of size 1 is at least half of
`min_per_bin`, so it is not merged): not every bin reaches `min_per_bin`. -/
theorem c3_min_bin_mass_cex :
    ¬ (∀ c ∈ (buildAdaptiveHistogram [(0 : ℚ), 1, 2] 2 20).2, 2 ≤ c) := by
  rw [buildAdaptiveHistogram, buildLoop]
  norm_num
  rw [buildLoop]
  norm_num
  rw [buildLoop]
  norm_num

/-- Witness for `c3_min_bin_mass` at baseline `[0,1,2]`, `min_per_bin = 2`,
`max_bins = 20`. -/
theorem c3_min_bin_mass_apply :
    2 ≤ ([(0 : ℚ), 1, 2]).length ∧
      ((∀ c ∈ (buildAdaptiveHistogram [(0 : ℚ), 1, 2] 2 20).2.dropLast, 2 ≤ c) ∧
        (∀ c, (buildAdaptiveHistogram [(0 : ℚ), 1, 2] 2 20).2.getLast? = some c →
          2 ≤ 2 * c)) :=
  ⟨by norm_num, c3_min_bin_mass [(0 : ℚ), 1, 2] 2 20 (by norm_num)⟩

/-- C9: `reset` is idempotent — a second `reset` changes nothing — and it
clears exactly the runtime state (window, occupancy, drift flag) while
keeping the baseline histogram, probabilities and envelopes. -/
theorem c9_reset_idempotent (s : HCMState) :
    reset (reset s) = reset s ∧
      (reset s).edges = s.edges ∧ (reset s).bin_counts = s.bin_counts ∧
      (reset s).K = s.K ∧ (reset s).N = s.N ∧ (reset s).p = s.p ∧
      (reset s).L = s.L ∧ (reset s).U = s.U ∧ (reset s).w = s.w ∧
      (reset s).buffer = [] ∧ (reset s).current_counts = List.replicate s.K 0 ∧
      (reset s).drift = false :=
  ⟨rfl, rfl, rfl, rfl, rfl, rfl, rfl, rfl, rfl, rfl, rfl, rfl⟩

/-- C7: evaluating the critical value at non-tabulated confidences.  For
`confidence = 0.5` and `0.9` the code yields `z = 2.576` — the constant
`except` fallback, not `sqrt(2) * erfcinv(1 - confidence)` (which would be
`≈ 0.674` resp. `≈ 1.645`), because `math.erfcinv` does not exist and its
attempted use always fails; the tabulated `0.95` and `0.99` read the table. -/
theorem c7_z_constant_fallback :
    zValue (1 / 2) = 2576 / 1000 ∧ zValue (9 / 10) = 2576 / 1000 ∧
      zValue (95 / 100) = 196 / 100 ∧ zValue (99 / 100) = 2576 / 1000 := by
  refine ⟨?_, ?_, ?_, ?_⟩ <;> · rw [zValue]; norm_num [abs_sub_lt_iff, abs_le]; try norm_num [abs_of_pos]

/-- Sorting keeps the length of its input. -/
lemma pySorted_length (l : List ℚ) : (pySorted l).length = l.length :=
  List.length_insertionSort _ l

/-- C2: the constructor performs no configuration validation.  Each of
`window_size = 0`, `max_bins = 0`, `min_per_bin = 0` and `confidence = 1.5`
is accepted and a detector is returned; the only check in `__init__` is the
insufficient-baseline check. -/
theorem c2_no_config_validation :
    (hcmInit [0, 1] 0 1 2 (99 / 100)).isSome = true ∧
      (hcmInit [0, 1] 5 1 0 (99 / 100)).isSome = true ∧
      (hcmInit [0, 1] 5 0 2 (99 / 100)).isSome = true ∧
      (hcmInit [0, 1] 5 1 2 (3 / 2)).isSome = true := by
  refine ⟨?_, ?_, ?_, ?_⟩ <;>
    · rw [hcmInit, hcmFromSorted, pySorted_length]
      norm_num

/-- Equal multisets sort to the same list. -/
lemma pySorted_eq_of_perm {l₁ l₂ : List ℚ} (h : l₁.Perm l₂) :
    pySorted l₁ = pySorted l₂ :=
  List.eq_of_perm_of_sorted
    ((List.perm_insertionSort _ l₁).trans (h.trans (List.perm_insertionSort _ l₂).symm))
    (List.sorted_insertionSort _ l₁) (List.sorted_insertionSort _ l₂)

/-- C10: construction is invariant under permutation of the baseline data —
the constructor sorts it first, so any ordering (sorted or not) is accepted
and produces the identical detector. -/
theorem c10_perm_invariant (l₁ l₂ : List ℚ) (w m b : ℕ) (γ : ℚ)
    (h : l₁.Perm l₂) : hcmInit l₁ w m b γ = hcmInit l₂ w m b γ := by
  rw [hcmInit, hcmInit, pySorted_eq_of_perm h]

/-- Witness for `c10_perm_invariant`: the unsorted baseline `[2,1]` yields
the same detector as the sorted `[1,2]`. -/
theorem c10_perm_invariant_apply :
    ([(2 : ℚ), 1]).Perm [1, 2] ∧
      hcmInit [(2 : ℚ), 1] 5 1 2 (99 / 100) = hcmInit [(1 : ℚ), 2] 5 1 2 (99 / 100) :=
  ⟨by decide, c10_perm_invariant [(2 : ℚ), 1] [1, 2] 5 1 2 (99 / 100) (by decide)⟩

/-- An in-range `getD` is an element of the list. -/
lemma getD_mem_of_lt (l : List ℚ) (n : ℕ) (h : n < l.length) : l.getD n 0 ∈ l := by
  induction l generalizing n with
  | nil => simp at h
  | cons e rest ih =>
    cases n with
    | zero => simp
    | succ n' => exact List.mem_cons_of_mem _ (ih n' (by simpa using h))

/-- In a non-decreasing list, `getD` is monotone over in-range indices. -/
lemma getD_mono_of_sorted (l : List ℚ) (hs : l.Sorted (· ≤ ·)) :
    ∀ a c : ℕ, a ≤ c → c < l.length → l.getD a 0 ≤ l.getD c 0 := by
  induction l with
  | nil => intro a c _ hc; simp at hc
  | cons e rest ih =>
    intro a c hac hc
    obtain ⟨he, hrest⟩ := List.sorted_cons.mp hs
    cases a with
    | zero =>
      cases c with
      | zero => exact le_refl _
      | succ c' =>
        simpa using he _ (getD_mem_of_lt rest c' (by simpa using hc))
    | succ a' =>
      cases c with
      | zero => omega
      | succ c' =>
        simpa using ih hrest a' c' (by omega) (by simpa using hc)

/-- `bisect_right` never exceeds the list length. -/
lemma bisectRight_le_length (x : ℚ) : ∀ l : List ℚ, bisectRight x l ≤ l.length
  | [] => le_refl _
  | e :: rest => by
    rw [bisectRight]
    split
    · simp
    · simpa using bisectRight_le_length x rest

/-- On a sorted list, all positions up to an element `≤ x` lie strictly below
the insertion point. -/
lemma le_bisectRight_of_getD (x : ℚ) (l : List ℚ) (hs : l.Sorted (· ≤ ·)) :
    ∀ i : ℕ, i < l.length → l.getD i 0 ≤ x → i + 1 ≤ bisectRight x l := by
  induction l with
  | nil => intro i hi; simp at hi
  | cons e rest ih =>
    intro i hi hle
    obtain ⟨he, hrest⟩ := List.sorted_cons.mp hs
    rw [bisectRight]
    cases i with
    | zero =>
      rw [if_neg (by simp only [List.getD_cons_zero] at hle; exact not_lt.mpr hle)]
      omega
    | succ i' =>
      have hi' : i' < rest.length := by simpa using hi
      have hle' : rest.getD i' 0 ≤ x := by simpa using hle
      rw [if_neg]
      · have := ih hrest i' hi' hle'
        omega
      · intro hxe
        exact absurd (le_trans (he _ (getD_mem_of_lt rest i' hi')) hle') (not_le.mpr hxe)

/-- The insertion point stays at or below any position whose element
exceeds `x`. -/
lemma bisectRight_le_of_lt (x : ℚ) :
    ∀ (l : List ℚ) (i : ℕ), i < l.length → x < l.getD i 0 → bisectRight x l ≤ i := by
  intro l
  induction l with
  | nil => intro i hi; simp at hi
  | cons e rest ih =>
    intro i hi hlt
    rw [bisectRight]
    cases i with
    | zero =>
      rw [if_pos (by simpa using hlt)]
    | succ i' =>
      split
      · omega
      · have := ih i' (by simpa using hi) (by simpa using hlt)
        omega

/-- Reducing the Python index `data[j-1]` for `j ≥ 1`. -/
lemma pyGetD_sub_one (data : List ℚ) (j : ℕ) (hj : 1 ≤ j) :
    pyGetD data ((j : ℤ) - 1) = data.getD (j - 1) 0 := by
  rw [pyGetD, if_neg (by omega)]
  congr 1
  omega

/-- Loop invariant of the edge list: every edge is a data value, the reversed
accumulator is non-increasing (so the emitted edges are non-decreasing), and
edges and counts stay in bijection. -/
lemma buildLoop_edges (data : List ℚ) (m b : ℕ) (hd : data.Sorted (· ≤ ·))
    (hm : 1 ≤ m) (i : ℕ) (edgesR : List ℚ) (countsR : List ℕ) :
    i ≤ data.length →
    (∀ e ∈ edgesR, ∃ jj, jj < i ∧ jj < data.length ∧ e = data.getD jj 0) →
    edgesR.Sorted (· ≥ ·) →
    edgesR.length = countsR.length →
    (∀ e ∈ (buildLoop data m b i edgesR countsR).1,
        ∃ jj, jj < data.length ∧ e = data.getD jj 0) ∧
      ((buildLoop data m b i edgesR countsR).1).Sorted (· ≥ ·) ∧
      ((buildLoop data m b i edgesR countsR).1).length =
        ((buildLoop data m b i edgesR countsR).2).length := by
  induction i, edgesR, countsR using buildLoop.induct data m b with
  | case1 i edgesR countsR h j h2 ih =>
    intro h3 h4 h5 h6
    rw [buildLoop, dif_pos h, dif_pos h2]
    have hji : i ≤ j := le_min (le_of_lt h.1) (Nat.le_add_right i m)
    have hjn : j ≤ data.length := min_le_left _ _
    have hj1 : 1 ≤ j := le_min (by omega) (by omega)
    have hne : edgesR ≠ [] := by
      intro hnil
      rw [hnil] at h6
      exact h2.2.1 (List.eq_nil_of_length_eq_zero h6.symm)
    obtain ⟨e0, et, rfl⟩ : ∃ e0 et, edgesR = e0 :: et := by
      cases edgesR with
      | nil => exact absurd rfl hne
      | cons e0 et => exact ⟨e0, et, rfl⟩
    obtain ⟨hee, het⟩ := List.sorted_cons.mp h5
    apply ih hjn
    · intro e he
      rcases List.mem_cons.mp he with rfl | he'
      · exact ⟨j - 1, by omega, by omega, (pyGetD_sub_one data j hj1).symm ▸ rfl⟩
      · obtain ⟨jj, hj1', hj2', hj3'⟩ := h4 e (List.mem_cons_of_mem _ (by simpa using he'))
        exact ⟨jj, by omega, hj2', hj3'⟩
    · rw [List.sorted_cons]
      refine ⟨fun e he => ?_, by simpa using het⟩
      obtain ⟨jj, hj1', hj2', rfl⟩ :=
        h4 e (List.mem_cons_of_mem _ (by simpa using he))
      rw [pyGetD_sub_one data j hj1]
      exact getD_mono_of_sorted data hd jj (j - 1) (by omega) (by omega)
    · have hc1 : 0 < countsR.length := List.length_pos.mpr h2.2.1
      simp only [List.length_cons, List.tail_cons, List.length_tail] at h6 ⊢
      omega
  | case2 i edgesR countsR h j h2 ih =>
    intro h3 h4 h5 h6
    rw [buildLoop, dif_pos h, dif_neg h2]
    have hji : i + 1 ≤ j := le_min (by omega) (by omega)
    have hjn : j ≤ data.length := min_le_left _ _
    have hj1 : 1 ≤ j := by omega
    apply ih hjn
    · intro e he
      rcases List.mem_cons.mp he with rfl | he'
      · exact ⟨j - 1, by omega, by omega, (pyGetD_sub_one data j hj1).symm ▸ rfl⟩
      · obtain ⟨jj, hj1', hj2', hj3'⟩ := h4 e he'
        exact ⟨jj, by omega, hj2', hj3'⟩
    · rw [List.sorted_cons]
      refine ⟨fun e he => ?_, h5⟩
      obtain ⟨jj, hj1', hj2', rfl⟩ := h4 e he
      rw [pyGetD_sub_one data j hj1]
      exact getD_mono_of_sorted data hd jj (j - 1) (by omega) (by omega)
    · simpa using h6
  | case3 i edgesR countsR h =>
    intro h3 h4 h5 h6
    rw [buildLoop, dif_neg h]
    exact ⟨fun e he => (h4 e he).imp (fun jj hjj => ⟨hjj.2.1, hjj.2.2⟩), h5, h6⟩

/-- Total bin mass of a built histogram (shared form of the C1 result). -/
lemma histTotalMass (data : List ℚ) (m b : ℕ) :
    ((buildAdaptiveHistogram data m b).2).sum = min data.length (b * m) := by
  have := buildLoop_sum data m b 0 [] [] rfl (Nat.zero_le _) (Nat.zero_le _)
    (fun _ => by simp) (fun h => by omega)
  simpa [buildAdaptiveHistogram, List.sum_reverse] using this

/-- A valid configuration produces at least one bin. -/
lemma hcmK_pos (data : List ℚ) (m b : ℕ) (hm : 1 ≤ m) (hb : 1 ≤ b)
    (hn : m ≤ data.length) : 1 ≤ hcmK data m b := by
  have hsum := histTotalMass (pySorted data) m b
  rw [pySorted_length] at hsum
  have hK : (hcmHist data m b).2 ≠ [] := by
    intro hnil
    rw [hcmHist] at hnil
    rw [hnil] at hsum
    simp only [List.sum_nil] at hsum
    have hbm : 1 ≤ b * m := Nat.one_le_iff_ne_zero.mpr (by positivity)
    omega
  rw [hcmK]
  exact List.length_pos.mpr hK

/-- Python `data[0]` is `getD 0`. -/
lemma pyGetD_zero (l : List ℚ) : pyGetD l 0 = l.getD 0 0 := by
  rw [pyGetD, if_neg (by omega)]
  rfl

/-- The edge list of a built detector is non-decreasing and has one more
entry than there are bins. -/
lemma hcmEdges_sorted (data : List ℚ) (m b : ℕ) (hm : 1 ≤ m)
    (hn : m ≤ data.length) :
    (hcmEdges data m b).Sorted (· ≤ ·) ∧
      (hcmEdges data m b).length = hcmK data m b + 1 := by
  set sd := pySorted data with hsd
  have hd : sd.Sorted (· ≤ ·) := List.sorted_insertionSort _ data
  have hn' : m ≤ sd.length := by rw [hsd, pySorted_length]; exact hn
  have hinv := buildLoop_edges sd m b hd hm 0 [] [] (Nat.zero_le _)
    (fun e he => absurd he (List.not_mem_nil e))
    List.sorted_nil rfl
  obtain ⟨hmem, hsort, hlen⟩ := hinv
  constructor
  · rw [hcmEdges, hcmHist, buildAdaptiveHistogram]
    rw [List.sorted_cons]
    constructor
    · intro e he
      obtain ⟨jj, hjj, rfl⟩ := hmem e (List.mem_reverse.mp he)
      have h0 : sd.getD 0 0 ≤ sd.getD jj 0 :=
        getD_mono_of_sorted sd hd 0 jj (Nat.zero_le _) hjj
      rw [pyGetD_zero]
      have : (0 : ℚ) < 1 / 1000000000 := by norm_num
      linarith
    · exact List.pairwise_reverse.mpr hsort
  · rw [hcmEdges, hcmK, hcmHist, buildAdaptiveHistogram]
    simp only [List.length_cons, List.length_reverse]
    rw [hlen]

/-- The bin index is always in range `0 .. K-1`. -/
lemma binIndex_lt (edges : List ℚ) (K : ℕ) (x : ℚ) (hK : 1 ≤ K) :
    binIndex edges K x < K := by
  rw [binIndex]
  split
  · omega
  · split
    · omega
    · omega

/-- C8: the bin locator of a constructed detector never errors and never
leaves `0 .. K-1`; any `x` below the sentinel left edge resolves to bin 0,
any `x` at or above the left edge of the last bin resolves to bin `K-1`, and
for `edges[i] ≤ x < edges[i+1]` it returns exactly `i` (so the index with
that property is unique). -/
theorem c8_bin_locator (data : List ℚ) (m b : ℕ) (hm : 1 ≤ m) (hb : 1 ≤ b)
    (hn : m ≤ data.length) (x : ℚ) :
    binIndex (hcmEdges data m b) (hcmK data m b) x < hcmK data m b ∧
      (x < (hcmEdges data m b).getD 0 0 →
        binIndex (hcmEdges data m b) (hcmK data m b) x = 0) ∧
      ((hcmEdges data m b).getD (hcmK data m b - 1) 0 ≤ x →
        binIndex (hcmEdges data m b) (hcmK data m b) x = hcmK data m b - 1) ∧
      (∀ i : ℕ, i + 1 < (hcmEdges data m b).length →
        (hcmEdges data m b).getD i 0 ≤ x → x < (hcmEdges data m b).getD (i + 1) 0 →
        binIndex (hcmEdges data m b) (hcmK data m b) x = i) := by
  obtain ⟨hE, hlen⟩ := hcmEdges_sorted data m b hm hn
  have hK : 1 ≤ hcmK data m b := hcmK_pos data m b hm hb hn
  set E := hcmEdges data m b
  set K := hcmK data m b
  have hbl : bisectRight x E ≤ E.length := bisectRight_le_length x E
  refine ⟨binIndex_lt E K x hK, ?_, ?_, ?_⟩
  · intro hx
    have h0 : bisectRight x E ≤ 0 := bisectRight_le_of_lt x E 0 (by omega) hx
    rw [binIndex, if_pos (by omega)]
  · intro hx
    have h1 : (K - 1) + 1 ≤ bisectRight x E :=
      le_bisectRight_of_getD x E hE (K - 1) (by omega) hx
    rw [binIndex]
    split
    · omega
    · split
      · rfl
      · omega
  · intro i hi hxi hxi1
    have h1 : i + 1 ≤ bisectRight x E := le_bisectRight_of_getD x E hE i (by omega) hxi
    have h2 : bisectRight x E ≤ i + 1 := bisectRight_le_of_lt x E (i + 1) (by omega) hxi1
    rw [binIndex]
    split
    · omega
    · split
      · omega
      · omega

/-- Witness for `c8_bin_locator`: baseline `[0,1]`, `min_per_bin = 1`,
`max_bins = 2`, probe `x = 1/2`. -/
theorem c8_bin_locator_apply :
    (1 ≤ 1 ∧ 1 ≤ 2 ∧ 1 ≤ ([(0 : ℚ), 1]).length) ∧
      (binIndex (hcmEdges [(0 : ℚ), 1] 1 2) (hcmK [(0 : ℚ), 1] 1 2) (1 / 2) <
          hcmK [(0 : ℚ), 1] 1 2 ∧
        ((1 : ℚ) / 2 < (hcmEdges [(0 : ℚ), 1] 1 2).getD 0 0 →
          binIndex (hcmEdges [(0 : ℚ), 1] 1 2) (hcmK [(0 : ℚ), 1] 1 2) (1 / 2) = 0) ∧
        ((hcmEdges [(0 : ℚ), 1] 1 2).getD (hcmK [(0 : ℚ), 1] 1 2 - 1) 0 ≤ 1 / 2 →
          binIndex (hcmEdges [(0 : ℚ), 1] 1 2) (hcmK [(0 : ℚ), 1] 1 2) (1 / 2) =
            hcmK [(0 : ℚ), 1] 1 2 - 1) ∧
        (∀ i : ℕ, i + 1 < (hcmEdges [(0 : ℚ), 1] 1 2).length →
          (hcmEdges [(0 : ℚ), 1] 1 2).getD i 0 ≤ 1 / 2 →
          (1 : ℚ) / 2 < (hcmEdges [(0 : ℚ), 1] 1 2).getD (i + 1) 0 →
          binIndex (hcmEdges [(0 : ℚ), 1] 1 2) (hcmK [(0 : ℚ), 1] 1 2) (1 / 2) = i)) :=
  ⟨⟨le_refl 1, by norm_num, by norm_num⟩,
    c8_bin_locator [(0 : ℚ), 1] 1 2 (by norm_num) (by norm_num) (by norm_num) (1 / 2)⟩

/-- The critical value is positive on every confidence level. -/
lemma zValue_pos (γ : ℚ) : 0 < zValue γ := by
  rw [zValue]
  split_ifs <;> norm_num

/-- A list element is at most the sum (natural numbers). -/
lemma mem_le_sum (l : List ℕ) (c : ℕ) (h : c ∈ l) : c ≤ l.sum := by
  induction l with
  | nil => exact absurd h (List.not_mem_nil c)
  | cons a t ih =>
    rcases List.mem_cons.mp h with rfl | h'
    · simp
    · calc c ≤ t.sum := ih h'
        _ ≤ (a :: t).sum := by simp
  
/-- Baseline probabilities lie in `[0, 1]`. -/
lemma hcmProbs_mem (data : List ℚ) (m b : ℕ) :
    ∀ q ∈ hcmProbs data m b, 0 ≤ q ∧ q ≤ 1 := by
  intro q hq
  rw [hcmProbs] at hq
  obtain ⟨c, hc, rfl⟩ := List.mem_map.mp hq
  constructor
  · positivity
  · rcases Nat.eq_zero_or_pos (pySorted data).length with hN | hN
    · rw [hN]
      norm_num
    · have hcs : c ≤ ((hcmHist data m b).2).sum := mem_le_sum _ c hc
      have hsum := histTotalMass (pySorted data) m b
      have hcN : c ≤ (pySorted data).length := by
        rw [hcmHist] at hcs
        rw [hsum] at hcs
        omega
      rw [div_le_one (by exact_mod_cast hN)]
      exact_mod_cast hcN

/-- Mapping commutes with in-range `getD`. -/
lemma getD_map_fn (p : List ℚ) (g : ℚ → ℤ) (i : ℕ) (hi : i < p.length) :
    (p.map g).getD i 0 = g (p.getD i 0) := by
  induction p generalizing i with
  | nil => simp at hi
  | cons a t ih =>
    cases i with
    | zero => simp
    | succ i' => simpa using ih i' (by simpa using hi)

/-- The two bound lists evaluate pointwise to the per-bin bounds. -/
lemma computeCountBounds_getD (p : List ℚ) (w : ℕ) (γ : ℚ) (i : ℕ)
    (hi : i < p.length) :
    (computeCountBounds p w γ).1.getD i 0 =
        (boundsFor w ((zValue γ : ℚ) : ℝ) (p.getD i 0)).1 ∧
      (computeCountBounds p w γ).2.getD i 0 =
        (boundsFor w ((zValue γ : ℚ) : ℝ) (p.getD i 0)).2 := by
  rw [computeCountBounds, List.unzip_fst, List.unzip_snd, List.map_map, List.map_map]
  constructor
  · exact getD_map_fn p _ i hi
  · exact getD_map_fn p _ i hi

/-- Per-bin soundness of the envelope computation: given a probability in
`[0,1]` and a non-negative critical value, `0 ≤ L ≤ U ≤ w`. -/
lemma boundsFor_good (w : ℕ) (z : ℝ) (hz : 0 ≤ z) (q : ℚ) (h0 : 0 ≤ q)
    (h1 : q ≤ 1) :
    0 ≤ (boundsFor w z q).1 ∧ (boundsFor w z q).1 ≤ (boundsFor w z q).2 ∧
      (boundsFor w z q).2 ≤ (w : ℤ) := by
  rw [boundsFor]
  split
  · refine ⟨le_refl 0, le_refl 0, ?_⟩
    simp only
    positivity
  · simp only
    set mu : ℝ := (w : ℝ) * (q : ℝ) with hmu
    set sigma : ℝ := Real.sqrt (max ((w : ℝ) * (q : ℝ) * (1 - (q : ℝ))) (1 / 1000000000))
      with hsigma
    have hσ : 0 ≤ sigma := Real.sqrt_nonneg _
    have hzσ : 0 ≤ z * sigma := mul_nonneg hz hσ
    have hq0 : (0 : ℝ) ≤ (q : ℝ) := by exact_mod_cast h0
    have hq1 : (q : ℝ) ≤ 1 := by exact_mod_cast h1
    have hw0 : (0 : ℝ) ≤ (w : ℝ) := Nat.cast_nonneg w
    have hμ0 : 0 ≤ mu := mul_nonneg hw0 hq0
    have hμw : mu ≤ (w : ℝ) := by
      calc mu = (w : ℝ) * (q : ℝ) := hmu
        _ ≤ (w : ℝ) * 1 := mul_le_mul_of_nonneg_left hq1 hw0
        _ = (w : ℝ) := mul_one _
    have hlu : max 0 (mu - z * sigma) ≤ min (w : ℝ) (mu + z * sigma) := by
      apply max_le
      · exact le_min hw0 (by linarith)
      · exact le_min (by linarith) (by linarith)
    refine ⟨?_, ?_, ?_⟩
    · exact Int.le_floor.mpr (by simpa using le_max_left 0 (mu - z * sigma))
    · exact le_trans (Int.floor_mono hlu) (Int.floor_le_ceil _)
    · exact Int.ceil_le.mpr (by simpa using min_le_left (w : ℝ) (mu + z * sigma))

/-- C6: the envelope bounds computed at construction satisfy
`0 ≤ L_i ≤ U_i ≤ w` for every bin of every detector, whatever the window
size and confidence. -/
theorem c6_envelope_bounds (data : List ℚ) (w m b : ℕ) (γ : ℚ) (i : ℕ)
    (hi : i < (hcmProbs data m b).length) :
    0 ≤ (hcmL data w m b γ).getD i 0 ∧
      (hcmL data w m b γ).getD i 0 ≤ (hcmU data w m b γ).getD i 0 ∧
      (hcmU data w m b γ).getD i 0 ≤ (w : ℤ) := by
  have hz : (0 : ℝ) ≤ ((zValue γ : ℚ) : ℝ) := by
    have := (zValue_pos γ).le
    exact_mod_cast this
  have hq := hcmProbs_mem data m b ((hcmProbs data m b).getD i 0)
    (getD_mem_of_lt _ i hi)
  have hgood := boundsFor_good w ((zValue γ : ℚ) : ℝ) hz _ hq.1 hq.2
  obtain ⟨hL, hU⟩ := computeCountBounds_getD (hcmProbs data m b) w γ i hi
  rw [hcmL, hcmU, hL, hU]
  exact hgood

/-- Witness for `c6_envelope_bounds`: baseline `[0,1]`, `w = 1`,
`min_per_bin = 1`, `max_bins = 2`, `confidence = 0.99`, bin `0`. -/
theorem c6_envelope_bounds_apply :
    0 < (hcmProbs [(0 : ℚ), 1] 1 2).length ∧
      (0 ≤ (hcmL [(0 : ℚ), 1] 1 1 2 (99 / 100)).getD 0 0 ∧
        (hcmL [(0 : ℚ), 1] 1 1 2 (99 / 100)).getD 0 0 ≤
          (hcmU [(0 : ℚ), 1] 1 1 2 (99 / 100)).getD 0 0 ∧
        (hcmU [(0 : ℚ), 1] 1 1 2 (99 / 100)).getD 0 0 ≤ ((1 : ℕ) : ℤ)) := by
  have hlen : 0 < (hcmProbs [(0 : ℚ), 1] 1 2).length := by
    rw [hcmProbs, List.length_map]
    have := hcmK_pos [(0 : ℚ), 1] 1 2 (le_refl 1) (by norm_num) (by norm_num)
    rw [hcmK] at this
    omega
  exact ⟨hlen, c6_envelope_bounds [(0 : ℚ), 1] 1 1 2 (99 / 100) 0 hlen⟩

/-- Sum after an in-range write. -/
lemma sum_set_int (l : List ℤ) (i : ℕ) (v : ℤ) (h : i < l.length) :
    (l.set i v).sum = l.sum - l.getD i 0 + v := by
  induction l generalizing i with
  | nil => simp at h
  | cons a t ih =>
    cases i with
    | zero => simp [List.set]; ring
    | succ i' =>
      simp only [List.set, List.sum_cons, List.getD_cons_succ]
      rw [ih i' (by simpa using h)]
      ring

/-- One `update` step on a well-formed state: it succeeds, preserves the
construction data, keeps counts in bijection with the bins, grows the window
up to `w`, and conserves `sum(current_counts) = len(buffer)`. -/
lemma update_step (s : HCMState) (x : ℚ) (hw : 1 ≤ s.w) (hK : 1 ≤ s.K)
    (hc : s.current_counts.length = s.K) (hb : s.buffer.length ≤ s.w)
    (hsum : s.current_counts.sum = (s.buffer.length : ℤ)) :
    ∃ r s', update s x = some (r, s') ∧ s'.K = s.K ∧ s'.w = s.w ∧
      s'.edges = s.edges ∧ s'.L = s.L ∧ s'.U = s.U ∧
      s'.current_counts.length = s.K ∧
      s'.buffer.length = min (s.buffer.length + 1) s.w ∧
      s'.current_counts.sum = (s'.buffer.length : ℤ) := by
  obtain ⟨E, BC, K, N, P, L, U, w, buf, cc, df⟩ := s
  dsimp only at hw hK hc hb hsum ⊢
  by_cases hfull : buf.length = w
  · obtain ⟨old, rest, rfl⟩ : ∃ old rest, buf = old :: rest := by
      cases buf with
      | nil => simp at hfull; omega
      | cons o r => exact ⟨o, r, rfl⟩
    have hoidx : binIndex E K old < cc.length := by
      rw [hc]; exact binIndex_lt E K old hK
    have hidx : binIndex E K x < (cc.set (binIndex E K old)
        (cc.getD (binIndex E K old) 0 - 1)).length := by
      rw [List.length_set, hc]; exact binIndex_lt E K x hK
    have hnlt : ¬ ((rest ++ [x]).length < w) := by
      simp only [List.length_append, List.length_cons, List.length_nil]
      simp only [List.length_cons] at hfull
      omega
    rw [update]
    dsimp only
    rw [if_pos hfull]
    dsimp only
    rw [if_neg hnlt]
    refine ⟨_, _, rfl, rfl, rfl, rfl, rfl, rfl, ?_, ?_, ?_⟩
    · simp only [List.length_set, hc]
    · simp only [List.length_append, List.length_cons, List.length_nil]
      simp only [List.length_cons] at hfull
      omega
    · dsimp only
      rw [sum_set_int _ _ _ hidx, sum_set_int _ _ _ hoidx]
      simp only [List.length_append, List.length_cons, List.length_nil]
      simp only [List.length_cons] at hsum
      push_cast at hsum ⊢
      omega
  · have hidx : binIndex E K x < cc.length := by
      rw [hc]; exact binIndex_lt E K x hK
    rw [update]
    dsimp only
    rw [if_neg hfull]
    dsimp only
    by_cases hfill : (buf ++ [x]).length < w
    · rw [if_pos hfill]
      refine ⟨_, _, rfl, rfl, rfl, rfl, rfl, rfl, ?_, ?_, ?_⟩
      · simp only [List.length_set, hc]
      · simp only [List.length_append, List.length_cons, List.length_nil] at hfill ⊢
        omega
      · dsimp only
        rw [sum_set_int _ _ _ hidx]
        simp only [List.length_append, List.length_cons, List.length_nil]
        push_cast
        omega
    · rw [if_neg hfill]
      refine ⟨_, _, rfl, rfl, rfl, rfl, rfl, rfl, ?_, ?_, ?_⟩
      · simp only [List.length_set, hc]
      · simp only [List.length_append, List.length_cons, List.length_nil] at hfill ⊢
        omega
      · dsimp only
        rw [sum_set_int _ _ _ hidx]
        simp only [List.length_append, List.length_cons, List.length_nil]
        push_cast
        omega

/-- Running a list of observations through `update` succeeds on well-formed
states, fills the window to `min (len + k) w`, and keeps
`sum(current_counts) = len(buffer)`. -/
lemma updates_inv (xs : List ℚ) : ∀ s : HCMState, 1 ≤ s.w → 1 ≤ s.K →
    s.current_counts.length = s.K → s.buffer.length ≤ s.w →
    s.current_counts.sum = (s.buffer.length : ℤ) →
    ∃ s', updates s xs = some s' ∧ s'.w = s.w ∧
      s'.buffer.length = min (s.buffer.length + xs.length) s.w ∧
      s'.current_counts.sum = (s'.buffer.length : ℤ) := by
  induction xs with
  | nil =>
    intro s hw hK hc hb hsum
    refine ⟨s, rfl, rfl, ?_, hsum⟩
    simp only [List.length_nil, Nat.add_zero]
    exact (min_eq_left hb).symm
  | cons x xs ih =>
    intro s hw hK hc hb hsum
    obtain ⟨r, s', hup, hK', hw', hE', hL', hU', hc', hblen, hsum'⟩ :=
      update_step s x hw hK hc hb hsum
    have hb' : s'.buffer.length ≤ s'.w := by
      rw [hblen, hw']
      exact min_le_right _ _
    obtain ⟨s'', h2, hw2, hblen2, hsum2⟩ := ih s' (by rw [hw']; exact hw)
      (by rw [hK']; exact hK) (by rw [hc', hK']) hb' hsum'
    refine ⟨s'', ?_, ?_, ?_, hsum2⟩
    · rw [updates, hup]
      exact h2
    · rw [hw2, hw']
    · rw [hblen2, hblen, hw']
      simp only [List.length_cons]
      omega

/-- C5: starting from a fresh window (construction or reset: empty buffer,
zero occupancy), once at least `w` updates have occurred the occupancy counts
sum to exactly `w` — and stay there after every further update. -/
theorem c5_occupancy_conserved (s : HCMState) (xs : List ℚ) (hw : 1 ≤ s.w)
    (hK : 1 ≤ s.K) (hc : s.current_counts.length = s.K) (hbuf : s.buffer = [])
    (hcc : s.current_counts.sum = 0) (hlen : s.w ≤ xs.length) :
    ∃ s', updates s xs = some s' ∧ s'.current_counts.sum = (s.w : ℤ) := by
  have hb : s.buffer.length ≤ s.w := by rw [hbuf]; simp
  have hsum : s.current_counts.sum = (s.buffer.length : ℤ) := by
    rw [hbuf, hcc]; simp
  obtain ⟨s', h1, hwq, hblen, hsum'⟩ := updates_inv xs s hw hK hc hb hsum
  refine ⟨s', h1, ?_⟩
  rw [hsum', hblen, hbuf]
  simp only [List.length_nil, Nat.zero_add]
  rw [min_eq_right hlen]

/-- Witness for `c5_occupancy_conserved`: a one-bin detector state with
`w = 1` fed one observation. -/
theorem c5_occupancy_conserved_apply :
    (1 ≤ (1 : ℕ) ∧ ([(0 : ℤ)]).length = 1 ∧ ([(0 : ℤ)]).sum = 0) ∧
      ∃ s', updates ⟨[0, 1], [1], 1, 1, [1], [0], [1], 1, [], [0], false⟩ [5] =
          some s' ∧ s'.current_counts.sum =
            ((HCMState.mk [0, 1] [1] 1 1 [1] [0] [1] 1 [] [0] false).w : ℤ) :=
  ⟨⟨le_refl 1, rfl, rfl⟩,
    c5_occupancy_conserved ⟨[0, 1], [1], 1, 1, [1], [0], [1], 1, [], [0], false⟩
      [5] (le_refl 1) (le_refl 1) rfl rfl rfl (le_refl 1)⟩

/-- The short-circuiting drift loop finds a violation exactly when one
exists: evaluation order is not observable. -/
lemma driftScan_iff : ∀ cs ls us : List ℤ,
    driftScan cs ls us = true ↔
      ∃ i, i < cs.length ∧ i < ls.length ∧ i < us.length ∧
        (cs.getD i 0 < ls.getD i 0 ∨ us.getD i 0 < cs.getD i 0) := by
  intro cs
  induction cs with
  | nil =>
    intro ls us
    simp [driftScan]
  | cons c cs' ih =>
    intro ls us
    cases ls with
    | nil =>
      simp [driftScan]
    | cons l ls' =>
      cases us with
      | nil =>
        simp [driftScan]
      | cons u us' =>
        rw [driftScan]
        split
        · constructor
          · intro _
            exact ⟨0, by simp, by simp, by simp, by simpa using ‹c < l ∨ u < c›⟩
          · intro _
            rfl
        · rw [ih ls' us']
          constructor
          · rintro ⟨i, h1, h2, h3, h4⟩
            exact ⟨i + 1, by simpa using h1, by simpa using h2, by simpa using h3,
              by simpa using h4⟩
          · rintro ⟨i, h1, h2, h3, h4⟩
            cases i with
            | zero =>
              exfalso
              exact ‹¬(c < l ∨ u < c)› (by simpa using h4)
            | succ i' =>
              exact ⟨i', by simpa using h1, by simpa using h2, by simpa using h3,
                by simpa using h4⟩

/-- C4: one `update` call on a well-formed detector state.  If the window is
still short of `w` after the insertion the call returns `true`
unconditionally; once it holds `w` elements the call returns `false` exactly
when some bin's post-mutation occupancy lies outside `[L_i, U_i]` — an
order-independent condition, so the loop's short-circuiting is not
observable. -/
theorem c4_update_contract (s : HCMState) (x : ℚ) (hw : 1 ≤ s.w)
    (hK : 1 ≤ s.K) (hc : s.current_counts.length = s.K)
    (hL : s.L.length = s.K) (hU : s.U.length = s.K) (hb : s.buffer.length ≤ s.w) :
    ∃ r s', update s x = some (r, s') ∧
      (s'.buffer.length < s.w → r = true) ∧
      (s'.buffer.length = s.w →
        (r = false ↔ ∃ i, i < s.K ∧
          (s'.current_counts.getD i 0 < s.L.getD i 0 ∨
            s.U.getD i 0 < s'.current_counts.getD i 0))) := by
  obtain ⟨E, BC, K, N, P, L, U, w, buf, cc, df⟩ := s
  dsimp only at hw hK hc hL hU hb ⊢
  by_cases hfull : buf.length = w
  · obtain ⟨old, rest, rfl⟩ : ∃ old rest, buf = old :: rest := by
      cases buf with
      | nil => simp at hfull; omega
      | cons o r => exact ⟨o, r, rfl⟩
    have hnlt : ¬ ((rest ++ [x]).length < w) := by
      simp only [List.length_append, List.length_cons, List.length_nil]
      simp only [List.length_cons] at hfull
      omega
    rw [update]
    dsimp only
    rw [if_pos hfull]
    dsimp only
    rw [if_neg hnlt]
    set cc1 := (cc.set (binIndex E K old) (cc.getD (binIndex E K old) 0 - 1)).set
      (binIndex E K x)
      ((cc.set (binIndex E K old) (cc.getD (binIndex E K old) 0 - 1)).getD
        (binIndex E K x) 0 + 1) with hcc1
    refine ⟨_, _, rfl, ?_, ?_⟩
    · intro hcontra
      exact absurd hcontra hnlt
    · intro _
      have hlen1 : cc1.length = K := by
        rw [hcc1, List.length_set, List.length_set, hc]
      constructor
      · intro hr
        have hd : driftScan cc1 L U = true := by
          rcases Bool.eq_false_or_eq_true (driftScan cc1 L U) with h' | h'
          · exact h'
          · rw [h'] at hr
            simp at hr
        obtain ⟨i, h1, h2, h3, h4⟩ := (driftScan_iff cc1 L U).mp hd
        exact ⟨i, by omega, h4⟩
      · rintro ⟨i, hiK, hviol⟩
        have hd : driftScan cc1 L U = true :=
          (driftScan_iff cc1 L U).mpr ⟨i, by omega, by omega, by omega, hviol⟩
        rw [hd]
        rfl
  · have hlt : buf.length < w := by omega
    rw [update]
    dsimp only
    rw [if_neg hfull]
    dsimp only
    set cc1 := cc.set (binIndex E K x) (cc.getD (binIndex E K x) 0 + 1) with hcc1
    by_cases hfill : (buf ++ [x]).length < w
    · rw [if_pos hfill]
      refine ⟨_, _, rfl, fun _ => rfl, ?_⟩
      intro hcontra
      exact absurd (hcontra ▸ hfill) (lt_irrefl w)
    · rw [if_neg hfill]
      refine ⟨_, _, rfl, ?_, ?_⟩
      · intro hcontra
        exact absurd hcontra hfill
      · intro _
        have hlen1 : cc1.length = K := by
          rw [hcc1, List.length_set, hc]
        constructor
        · intro hr
          have hd : driftScan cc1 L U = true := by
            rcases Bool.eq_false_or_eq_true (driftScan cc1 L U) with h' | h'
            · exact h'
            · rw [h'] at hr
              simp at hr
          obtain ⟨i, h1, h2, h3, h4⟩ := (driftScan_iff cc1 L U).mp hd
          exact ⟨i, by omega, h4⟩
        · rintro ⟨i, hiK, hviol⟩
          have hd : driftScan cc1 L U = true :=
            (driftScan_iff cc1 L U).mpr ⟨i, by omega, by omega, by omega, hviol⟩
          rw [hd]
          rfl

/-- Witness for `c4_update_contract`: a one-bin state with `w = 1`,
`L = [0]`, `U = [1]`, updated with `x = 5`. -/
theorem c4_update_contract_apply :
    (1 ≤ (1 : ℕ) ∧ ([(0 : ℤ)]).length = 1 ∧ ([] : List ℚ).length ≤ 1) ∧
      ∃ r s', update ⟨[0, 1], [1], 1, 1, [1], [0], [1], 1, [], [0], false⟩ 5 =
          some (r, s') ∧
        (s'.buffer.length < 1 → r = true) ∧
        (s'.buffer.length = 1 →
          (r = false ↔ ∃ i, i < 1 ∧
            (s'.current_counts.getD i 0 < ([(0 : ℤ)]).getD i 0 ∨
              ([(1 : ℤ)]).getD i 0 < s'.current_counts.getD i 0))) :=
  ⟨⟨le_refl 1, rfl, by simp⟩,
    c4_update_contract ⟨[0, 1], [1], 1, 1, [1], [0], [1], 1, [], [0], false⟩ 5
      (le_refl 1) (le_refl 1) rfl rfl rfl (by simp)⟩
